import Mathlib

/-!
Shallow embedding of `src/make_ps_dict.py`, a converter from CMUdict format
to PocketSphinx format.  Strings are modelled as `List Char`; Python string
comparison is code-point lexicographic, which coincides with comparison of
`Char` values.  Python regular expressions are embedded by hand:
`re.sub` with the patterns used by the script can match at most once, and
the `$` anchor (without MULTILINE) matches at the end of the string or
just before a single newline that ends the string.  Python `\d` and
`str.split()` / `str.strip()` whitespace classes are modelled by their
ASCII fragments (the dictionary data is ASCII).
-/

namespace MakePsDict

/-- The stress digits of CMUdict: the character class `[012]`. -/
def isStress (c : Char) : Bool :=
  c == '0' || c == '1' || c == '2'

/-- Python `$` (no MULTILINE) matches when the remaining input is empty or a
single trailing newline. -/
def dollarAt (r : List Char) : Bool :=
  decide (r = [] ∨ r = ['\n'])

/-- Embeds `strip_stress` (src/make_ps_dict.py:20-35), i.e.
`re.sub(r'[012]$', '', phoneme)`: scan left to right and delete a stress
digit standing at a position where `$` matches.  The pattern can match at
most once, so the scan stops after a deletion. -/
def strip_stress : List Char → List Char
  | [] => []
  | c :: rest => if isStress c && dollarAt rest then rest else c :: strip_stress rest

/-- ASCII fragment of Python str whitespace (`str.strip`/`str.split`). -/
def isSpace (c : Char) : Bool :=
  c == ' ' || c == '\t' || c == '\n' || c == '\r' || c == '\x0c' || c == '\x0b'

/-- Embeds Python `str.strip()`. -/
def pyStrip (s : List Char) : List Char :=
  ((s.dropWhile isSpace).reverse.dropWhile isSpace).reverse

/-- Worker for `pySplit`; `cur` holds the current token reversed. -/
def pySplitAux : List Char → List Char → List (List Char)
  | [], cur => if cur.isEmpty then [] else [cur.reverse]
  | c :: rest, cur =>
    if isSpace c then
      if cur.isEmpty then pySplitAux rest [] else cur.reverse :: pySplitAux rest []
    else pySplitAux rest (c :: cur)

/-- Embeds Python `str.split()` with no separator: split on runs of
whitespace, producing no empty tokens. -/
def pySplit (s : List Char) : List (List Char) :=
  pySplitAux s []

/-- Embeds `line.startswith(';;;')`. -/
def startsWithSemis : List Char → Bool
  | ';' :: ';' :: ';' :: _ => true
  | _ => false

/-- Embeds the inline-comment removal of `parse_cmudict_line`
(src/make_ps_dict.py:60-61): `if '#' in line: line = line.split('#')[0].strip()`. -/
def removeComment (s : List Char) : List Char :=
  if s.contains '#' then pyStrip (s.takeWhile (fun c => c != '#')) else s

/-- Helper for the regex `\(\d+\)$` of src/make_ps_dict.py:72, working on the
reversed word: recognise `')'`, then one or more digits, then `'('`, and
return the rest (still reversed). -/
def dropVariantRev (r : List Char) : Option (List Char) :=
  match r with
  | c :: rest =>
    if c = ')' then
      if (rest.takeWhile Char.isDigit).isEmpty then none
      else
        match rest.dropWhile Char.isDigit with
        | c2 :: q => if c2 = '(' then some q else none
        | [] => none
    else none
  | [] => none

/-- Embeds `re.sub(r'\(\d+\)$', '', word_with_variant)`
(src/make_ps_dict.py:72).  As with `strip_stress`, Python `$` also matches
just before a single trailing newline. -/
def dropVariantSuffix (w : List Char) : List Char :=
  match dropVariantRev w.reverse with
  | some q => q.reverse
  | none =>
    match w.reverse with
    | c :: r =>
      if c = '\n' then
        match dropVariantRev r with
        | some q => q.reverse ++ ['\n']
        | none => w
      else w
    | [] => w

/-- Embeds `parse_cmudict_line` (src/make_ps_dict.py:38-74). -/
def parse_cmudict_line (line : List Char) : Option (List Char × List (List Char)) :=
  let l := pyStrip line
  if l.isEmpty || startsWithSemis l then none
  else
    match pySplit (removeComment l) with
    | tok :: p :: ps => some (dropVariantSuffix tok, p :: ps)
    | _ => none

/-- Embeds Python `' '.join(...)`. -/
def joinSpace : List (List Char) → List Char
  | [] => []
  | [p] => p
  | p :: q :: ps => p ++ ' ' :: joinSpace (q :: ps)

/-- The normalized pronunciation string of a phoneme list
(src/make_ps_dict.py:108-109). -/
def normPron (phonemes : List (List Char)) : List Char :=
  joinSpace (phonemes.map strip_stress)

/-- One entry of the accumulation map: base word paired with its ordered
list of unique normalized pronunciations. -/
abbrev Entry := List Char × List (List Char)

/-- Embeds the body of the read loop (src/make_ps_dict.py:111-113): the
`defaultdict` access followed by the membership-guarded append.  The map is
an association list in key-insertion order, matching a Python dict. -/
def addPron : List Entry → List Char → List Char → List Entry
  | [], w, pron => [(w, [pron])]
  | e :: rest, w, pron =>
    if e.1 = w then
      (if pron ∈ e.2 then e :: rest else (e.1, e.2 ++ [pron]) :: rest)
    else e :: addPron rest w pron

/-- Embeds the accumulation phase of `convert_dict`
(src/make_ps_dict.py:100-113). -/
def accumulate (lines : List (List Char)) : List Entry :=
  lines.foldl
    (fun m line =>
      match parse_cmudict_line line with
      | none => m
      | some r => addPron m r.1 (normPron r.2))
    []

/-- Python string `<`: code-point lexicographic comparison. -/
def strLt : List Char → List Char → Bool
  | [], [] => false
  | [], _ :: _ => true
  | _ :: _, [] => false
  | c :: cs, d :: ds => if c = d then strLt cs ds else decide (c < d)

/-- Insertion step of the sort modelling Python `sorted` on the keys.  The
keys of the accumulated map are pairwise distinct, so the sorted
permutation produced here is the unique one `sorted` also produces. -/
def insertEntry (e : Entry) : List Entry → List Entry
  | [] => [e]
  | f :: rest => if strLt f.1 e.1 then f :: insertEntry e rest else e :: f :: rest

/-- Embeds `sorted(word_pronunciations)` (src/make_ps_dict.py:117), pairing
each key with its pronunciation list. -/
def sortEntries (m : List Entry) : List Entry :=
  m.foldr insertEntry []

/-- Embeds the variant annotation of src/make_ps_dict.py:121-125: index 0
gives the bare word, index `idx > 0` gives `f"{base_word}({idx + 1})"`. -/
def variantWord (w : List Char) (idx : Nat) : List Char :=
  if idx = 0 then w else w ++ '(' :: (toString (idx + 1)).data ++ [')']

/-- Embeds the inner output loop over `enumerate(pronunciations)`
(src/make_ps_dict.py:120-128): one output line per pronunciation. -/
def emitWord (w : List Char) (ps : List (List Char)) : List (List Char) :=
  ps.enum.map (fun ip => variantWord w ip.1 ++ ' ' :: ip.2)

/-- Embeds the outer output loop (src/make_ps_dict.py:116-128): the emitted
lines together with `entries_written`, incremented once per printed line. -/
def emitAll : List Entry → List (List Char) × Nat
  | [] => ([], 0)
  | e :: rest =>
    ((emitWord e.1 e.2) ++ (emitAll rest).1, (emitWord e.1 e.2).length + (emitAll rest).2)

/-- Embeds `convert_dict` (src/make_ps_dict.py:77-130): the list of emitted
output lines and the returned entry count. -/
def convert_dict (lines : List (List Char)) : List (List Char) × Nat :=
  emitAll (sortEntries (accumulate lines))

/-! Specification-side definitions used to state the claims. -/

/-- Lookup in the accumulation map; a missing key reads as the empty list
(the `defaultdict` default). -/
def lookupPs : List Entry → List Char → List (List Char)
  | [], _ => []
  | e :: rest, w => if e.1 = w then e.2 else lookupPs rest w

/-- The normalized pronunciations contributed to base word `w` by the input
lines, in input order, duplicates included. -/
def pronsOf (w : List Char) (lines : List (List Char)) : List (List Char) :=
  lines.filterMap (fun line =>
    match parse_cmudict_line line with
    | some r => if r.1 = w then some (normPron r.2) else none
    | none => none)

/-- Keep the first occurrence of every string, in first-seen order. -/
def firstSeen : List (List Char) → List (List Char)
  | [] => []
  | x :: xs => x :: (firstSeen xs).filter (fun y => decide (y ≠ x))

/-- The token ends with a stress digit. -/
def endsWithStress : List Char → Bool
  | [] => false
  | [c] => isStress c
  | _ :: c :: rest => endsWithStress (c :: rest)

/-- The token ends with a stress digit followed by a final newline. -/
def endsWithStressNl : List Char → Bool
  | [] => false
  | [_] => false
  | [c, d] => isStress c && d == '\n'
  | _ :: c :: d :: rest => endsWithStressNl (c :: d :: rest)

/-- The token ends in one of the patterns on which `strip_stress` fails to
be idempotent: two stress digits, two stress digits then a newline, or
stress digit, newline, stress digit. -/
def badEnd : List Char → Bool
  | [] => false
  | [_] => false
  | [c, d] => isStress c && isStress d
  | [c, d, e] =>
    (isStress c && isStress d && e == '\n') ||
    (isStress c && d == '\n' && isStress e) ||
    (isStress d && isStress e)
  | _ :: c :: d :: e :: rest => badEnd (c :: d :: e :: rest)

/-- The emitted lines paired with the base word each line belongs to. -/
def taggedOut (lines : List (List Char)) : List (List Char × List Char) :=
  (sortEntries (accumulate lines)).flatMap
    (fun e => (emitWord e.1 e.2).map (fun l => (e.1, l)))

/-! Helper lemmas about `strip_stress` and the end-of-token predicates. -/

theorem strip_stress_cons (c : Char) (rest : List Char) :
    strip_stress (c :: rest) =
      if isStress c && dollarAt rest then rest else c :: strip_stress rest := rfl

theorem isStress_ne_nl {c : Char} (hc : isStress c = true) : c ≠ '\n' := by
  have h : (c = '0' ∨ c = '1') ∨ c = '2' := by simpa [isStress] using hc
  rcases h with (h | h) | h <;> subst h <;> decide

theorem dollarAt_two_le {r : List Char} (h : 2 ≤ r.length) : dollarAt r = false := by
  simp only [dollarAt, decide_eq_false_iff_not, not_or]
  constructor <;> intro he <;> subst he <;> simp at h

theorem strip_stress_snoc_stress (q : List Char) (c : Char) (hc : isStress c = true) :
    strip_stress (q ++ [c]) = q := by
  induction q with
  | nil =>
    simp only [List.nil_append, strip_stress_cons]
    rw [if_pos (by simp [hc, dollarAt])]
  | cons x q ih =>
    have hd : dollarAt (q ++ [c]) = false := by
      cases q with
      | nil => simp [dollarAt, isStress_ne_nl hc]
      | cons y t => exact dollarAt_two_le (by simp)
    simp only [List.cons_append, strip_stress_cons]
    rw [if_neg (by simp [hd]), ih]

theorem strip_stress_snoc_stress_nl (q : List Char) (c : Char) (hc : isStress c = true) :
    strip_stress (q ++ [c, '\n']) = q ++ ['\n'] := by
  induction q with
  | nil =>
    simp only [List.nil_append, strip_stress_cons]
    rw [if_pos (by simp [hc, dollarAt])]
  | cons x q ih =>
    have hd : dollarAt (q ++ [c, '\n']) = false := dollarAt_two_le (by simp)
    simp only [List.cons_append, strip_stress_cons]
    rw [if_neg (by simp [hd]), ih]

theorem endsWithStress_cons_of_ne_nil (x : Char) {l : List Char} (h : l ≠ []) :
    endsWithStress (x :: l) = endsWithStress l := by
  match l, h with
  | c :: rest, _ => rfl

theorem endsWithStressNl_cons_of_two_le (x : Char) {l : List Char} (h : 2 ≤ l.length) :
    endsWithStressNl (x :: l) = endsWithStressNl l := by
  match l, h with
  | c :: d :: rest, _ => rfl

theorem badEnd_cons_of_three_le (x : Char) {l : List Char} (h : 3 ≤ l.length) :
    badEnd (x :: l) = badEnd l := by
  match l, h with
  | c :: d :: e :: rest, _ => rfl

theorem strip_stress_of_no_end :
    ∀ p : List Char, endsWithStress p = false → endsWithStressNl p = false →
      strip_stress p = p := by
  intro p
  induction p with
  | nil => intro _ _; rfl
  | cons c rest ih =>
    intro h1 h2
    cases rest with
    | nil =>
      have h1' : isStress c = false := h1
      rw [strip_stress_cons, if_neg (by simp [h1'])]
      rfl
    | cons d rest2 =>
      cases rest2 with
      | nil =>
        have h1' : isStress d = false := h1
        by_cases hd : d = '\n'
        · subst hd
          have h2' : isStress c = false := by simpa [endsWithStressNl] using h2
          rw [strip_stress_cons, if_neg (by simp [h2'])]
          rw [strip_stress_cons, if_neg (by simp [h1'])]
          rfl
        · have hda : dollarAt [d] = false := by simp [dollarAt, hd]
          rw [strip_stress_cons, if_neg (by simp [hda])]
          rw [strip_stress_cons, if_neg (by simp [h1'])]
          rfl
      | cons e rest3 =>
        have hda : dollarAt (d :: e :: rest3) = false := dollarAt_two_le (by simp)
        have h1' : endsWithStress (d :: e :: rest3) = false := h1
        have h2' : endsWithStressNl (d :: e :: rest3) = false := h2
        rw [strip_stress_cons, if_neg (by simp [hda]), ih h1' h2']

theorem exists_of_endsWithStress :
    ∀ {p : List Char}, endsWithStress p = true →
      ∃ q c, isStress c = true ∧ p = q ++ [c] := by
  intro p
  induction p with
  | nil => intro h; simp [endsWithStress] at h
  | cons a rest ih =>
    intro h
    cases rest with
    | nil => exact ⟨[], a, h, rfl⟩
    | cons b t =>
      obtain ⟨q, c, hc, hq⟩ := ih h
      exact ⟨a :: q, c, hc, by simp [hq]⟩

theorem exists_of_endsWithStressNl :
    ∀ {p : List Char}, endsWithStressNl p = true →
      ∃ q c, isStress c = true ∧ p = q ++ [c, '\n'] := by
  intro p
  induction p with
  | nil => intro h; simp [endsWithStressNl] at h
  | cons a rest ih =>
    intro h
    cases rest with
    | nil => simp [endsWithStressNl] at h
    | cons b t =>
      cases t with
      | nil =>
        have h' : isStress a = true ∧ b = '\n' := by simpa [endsWithStressNl] using h
        exact ⟨[], a, h'.1, by simp [h'.2]⟩
      | cons e t2 =>
        obtain ⟨q, c, hc, hq⟩ := ih h
        exact ⟨a :: q, c, hc, by simp [hq]⟩

theorem endsWithStress_snoc (q : List Char) (a : Char) :
    endsWithStress (q ++ [a]) = isStress a := by
  induction q with
  | nil => rfl
  | cons x q ih =>
    rw [List.cons_append, @endsWithStress_cons_of_ne_nil x (q ++ [a]) (by simp), ih]

theorem endsWithStressNl_snoc (q : List Char) (a : Char) :
    endsWithStressNl (q ++ [a]) = (endsWithStress q && a == '\n') := by
  induction q with
  | nil => rfl
  | cons x q ih =>
    cases q with
    | nil => rfl
    | cons y t =>
      rw [List.cons_append, @endsWithStressNl_cons_of_two_le x ((y :: t) ++ [a]) (by simp),
        ih, @endsWithStress_cons_of_ne_nil x (y :: t) (by simp)]

theorem badEnd_snoc2 (q : List Char) (a b : Char)
    (ha : isStress a = true) (hb : isStress b = true) :
    badEnd (q ++ [a, b]) = true := by
  induction q with
  | nil => simp [badEnd, ha, hb]
  | cons x q ih =>
    cases q with
    | nil => simp [badEnd, ha, hb]
    | cons y t =>
      rw [List.cons_append, @badEnd_cons_of_three_le x ((y :: t) ++ [a, b]) (by simp)]
      exact ih

theorem badEnd_snoc3_mid_nl (q : List Char) (a b : Char)
    (ha : isStress a = true) (hb : isStress b = true) :
    badEnd (q ++ [a, '\n', b]) = true := by
  induction q with
  | nil => simp [badEnd, ha, hb]
  | cons x q ih =>
    cases q with
    | nil => simp [badEnd, ha, hb]
    | cons y t =>
      rw [List.cons_append, @badEnd_cons_of_three_le x ((y :: t) ++ [a, '\n', b]) (by simp)]
      exact ih

theorem badEnd_snoc3_end_nl (q : List Char) (a b : Char)
    (ha : isStress a = true) (hb : isStress b = true) :
    badEnd (q ++ [a, b, '\n']) = true := by
  induction q with
  | nil => simp [badEnd, ha, hb]
  | cons x q ih =>
    cases q with
    | nil => simp [badEnd, ha, hb]
    | cons y t =>
      rw [List.cons_append, @badEnd_cons_of_three_le x ((y :: t) ++ [a, b, '\n']) (by simp)]
      exact ih

/-!
Claim theorems (C3, C4, C9, C10).
-/

/-- C3 counterexample: the claim says `strip_stress` leaves a token whose
final character is not a stress digit unchanged, but on the token
`"A0\n"` (final character a newline) Python `$` matches before the
trailing newline and the inner digit is removed. -/
theorem claim_C3_counterexample :
    isStress '\n' = false ∧ strip_stress ['A', '0', '\n'] ≠ ['A', '0', '\n'] := by
  decide

/-- C3 (amended): `strip_stress` removes the single trailing character when
the token ends with a stress digit; when the token ends with a stress digit
followed by a single trailing newline it removes that digit and keeps the
newline; otherwise it returns the token unchanged. -/
theorem claim_C3 (p : List Char) :
    (∀ q c, isStress c = true → p = q ++ [c] → strip_stress p = q)
    ∧ (∀ q c, isStress c = true → p = q ++ [c, '\n'] → strip_stress p = q ++ ['\n'])
    ∧ (endsWithStress p = false → endsWithStressNl p = false → strip_stress p = p) := by
  refine ⟨?_, ?_, strip_stress_of_no_end p⟩
  · intro q c hc hp
    subst hp
    exact strip_stress_snoc_stress q c hc
  · intro q c hc hp
    subst hp
    exact strip_stress_snoc_stress_nl q c hc

/-- Witness for C3 at the tokens AH0, IH1 followed by a newline, and T. -/
theorem claim_C3_witness :
    strip_stress ['A', 'H', '0'] = ['A', 'H']
    ∧ strip_stress ['I', 'H', '1', '\n'] = ['I', 'H', '\n']
    ∧ strip_stress ['T'] = ['T'] :=
  ⟨(claim_C3 ['A', 'H', '0']).1 ['A', 'H'] '0' (by decide) (by decide),
   (claim_C3 ['I', 'H', '1', '\n']).2.1 ['I', 'H'] '1' (by decide) (by decide),
   (claim_C3 ['T']).2.2 (by decide) (by decide)⟩

/-- C4 counterexample: normalization is not idempotent on every token; on
`"A00"` the first pass removes only the final digit, leaving `"A0"`, and a
second pass strips again. -/
theorem claim_C4_counterexample :
    strip_stress (strip_stress ['A', '0', '0']) ≠ strip_stress ['A', '0', '0'] := by
  decide

/-- C4 (amended): `strip_stress` is idempotent on every token that does not
end in one of the patterns digit-digit, digit-newline-digit or
digit-digit-newline (stress digits); elementwise, normalizing an
already-normalized sequence of such tokens yields the same sequence. -/
theorem claim_C4 :
    (∀ p : List Char, badEnd p = false →
        strip_stress (strip_stress p) = strip_stress p)
    ∧ (∀ ps : List (List Char), (∀ p ∈ ps, badEnd p = false) →
        (ps.map strip_stress).map strip_stress = ps.map strip_stress) := by
  have core : ∀ p : List Char, badEnd p = false →
      strip_stress (strip_stress p) = strip_stress p := by
    intro p hp
    by_cases h1 : endsWithStress p = true
    · obtain ⟨q, c, hc, rfl⟩ := exists_of_endsWithStress h1
      rw [strip_stress_snoc_stress q c hc]
      apply strip_stress_of_no_end
      · cases hq : endsWithStress q with
        | false => rfl
        | true =>
          obtain ⟨q2, d, hd, rfl⟩ := exists_of_endsWithStress hq
          rw [show (q2 ++ [d]) ++ [c] = q2 ++ [d, c] by simp] at hp
          rw [badEnd_snoc2 q2 d c hd hc] at hp
          exact absurd hp (by simp)
      · cases hq : endsWithStressNl q with
        | false => rfl
        | true =>
          obtain ⟨q2, d, hd, rfl⟩ := exists_of_endsWithStressNl hq
          rw [show (q2 ++ [d, '\n']) ++ [c] = q2 ++ [d, '\n', c] by simp] at hp
          rw [badEnd_snoc3_mid_nl q2 d c hd hc] at hp
          exact absurd hp (by simp)
    · by_cases h2 : endsWithStressNl p = true
      · obtain ⟨q, c, hc, rfl⟩ := exists_of_endsWithStressNl h2
        rw [strip_stress_snoc_stress_nl q c hc]
        apply strip_stress_of_no_end
        · rw [endsWithStress_snoc]
          decide
        · rw [endsWithStressNl_snoc]
          cases hq : endsWithStress q with
          | false => rfl
          | true =>
            obtain ⟨q2, d, hd, rfl⟩ := exists_of_endsWithStress hq
            rw [show (q2 ++ [d]) ++ [c, '\n'] = q2 ++ [d, c, '\n'] by simp] at hp
            rw [badEnd_snoc3_end_nl q2 d c hd hc] at hp
            exact absurd hp (by simp)
      · rw [Bool.not_eq_true] at h1 h2
        rw [strip_stress_of_no_end p h1 h2, strip_stress_of_no_end p h1 h2]
  refine ⟨core, ?_⟩
  intro ps hps
  induction ps with
  | nil => rfl
  | cons p ps ih =>
    simp only [List.map_cons]
    rw [core p (hps p (by simp)), ih (fun x hx => hps x (by simp [hx]))]

/-- Witness for C4 at the token AH0 and the sequence IH1, T. -/
theorem claim_C4_witness :
    strip_stress (strip_stress ['A', 'H', '0']) = strip_stress ['A', 'H', '0']
    ∧ ([['I', 'H', '1'], ['T']].map strip_stress).map strip_stress
        = [['I', 'H', '1'], ['T']].map strip_stress :=
  ⟨claim_C4.1 ['A', 'H', '0'] (by decide),
   claim_C4.2 [['I', 'H', '1'], ['T']] (by decide)⟩

/-- C9: a token that is exactly one stress digit strips to the empty
string, and an entry containing such a token is emitted with a double
space rather than rejected: the input line `"w 0 K"` yields the single
output line `"w  K"` and a count of 1. -/
theorem claim_C9 :
    strip_stress ['0'] = [] ∧ strip_stress ['1'] = [] ∧ strip_stress ['2'] = []
    ∧ (convert_dict [['w', ' ', '0', ' ', 'K']]).1 = [['w', ' ', ' ', 'K']]
    ∧ (convert_dict [['w', ' ', '0', ' ', 'K']]).2 = 1 := by
  decide

/-- C10: `convert_dict` is deterministic: runs on equal input line
sequences produce identical output lines and equal counts. -/
theorem claim_C10 (lines1 lines2 : List (List Char)) (h : lines1 = lines2) :
    (convert_dict lines1).1 = (convert_dict lines2).1
    ∧ (convert_dict lines1).2 = (convert_dict lines2).2 := by
  subst h
  exact ⟨rfl, rfl⟩

/-- Witness for C10 on a one-line input. -/
theorem claim_C10_witness :
    (convert_dict [['a', ' ', 'B', '1']]).1 = (convert_dict [['a', ' ', 'B', '1']]).1
    ∧ (convert_dict [['a', ' ', 'B', '1']]).2 = (convert_dict [['a', ' ', 'B', '1']]).2 :=
  claim_C10 [['a', ' ', 'B', '1']] [['a', ' ', 'B', '1']] rfl

/-! Characterization of the accumulation phase. -/

theorem lookupPs_addPron (m : List Entry) (w' pron w : List Char) :
    lookupPs (addPron m w' pron) w =
      if w = w' then
        (if pron ∈ lookupPs m w' then lookupPs m w' else lookupPs m w' ++ [pron])
      else lookupPs m w := by
  induction m with
  | nil =>
    by_cases h : w = w'
    · subst h
      simp [addPron, lookupPs]
    · simp [addPron, lookupPs, h, Ne.symm h]
  | cons e rest ih =>
    by_cases h1 : e.1 = w'
    · by_cases h3 : w = w'
      · subst h3
        by_cases h2 : pron ∈ e.2 <;> simp [addPron, lookupPs, h1, h2]
      · by_cases h2 : pron ∈ e.2 <;>
          simp [addPron, lookupPs, h1, h2, h3, Ne.symm h3]
    · by_cases h3 : w = w'
      · subst h3
        simp [addPron, lookupPs, h1, ih]
      · by_cases h4 : e.1 = w <;> simp [addPron, lookupPs, h1, h3, h4, ih]

theorem mem_firstSeen (x : List Char) :
    ∀ l : List (List Char), x ∈ firstSeen l ↔ x ∈ l := by
  intro l
  induction l with
  | nil => simp [firstSeen]
  | cons y l ih =>
    by_cases h : x = y
    · subst h
      simp [firstSeen]
    · simp [firstSeen, h, ih]

theorem firstSeen_snoc (l : List (List Char)) (x : List Char) :
    firstSeen (l ++ [x]) = if x ∈ l then firstSeen l else firstSeen l ++ [x] := by
  induction l with
  | nil => simp [firstSeen]
  | cons y l ih =>
    simp only [List.cons_append, firstSeen, List.append_eq]
    rw [ih]
    by_cases h : x ∈ l
    · rw [if_pos h, if_pos (List.mem_cons_of_mem y h)]
    · by_cases hxy : x = y
      · subst hxy
        rw [if_neg h, if_pos (List.mem_cons_self x l)]
        simp [List.filter_append]
      · rw [if_neg h, if_neg (by simp [h, hxy])]
        simp [List.filter_append, hxy]

theorem nodup_firstSeen : ∀ l : List (List Char), (firstSeen l).Nodup := by
  intro l
  induction l with
  | nil => simp [firstSeen]
  | cons y l ih =>
    refine List.Nodup.cons ?_ (List.Nodup.filter _ ih)
    intro hmem
    have := List.of_mem_filter hmem
    simp at this

theorem lookupPs_accumulate (lines : List (List Char)) (w : List Char) :
    lookupPs (accumulate lines) w = firstSeen (pronsOf w lines) := by
  induction lines using List.reverseRecOn with
  | nil => rfl
  | append_singleton ls l ih =>
    have hacc : accumulate (ls ++ [l]) =
        (match parse_cmudict_line l with
         | none => accumulate ls
         | some r => addPron (accumulate ls) r.1 (normPron r.2)) := by
      simp [accumulate, List.foldl_append]
    have hpr : pronsOf w (ls ++ [l]) = pronsOf w ls ++ pronsOf w [l] := by
      simp [pronsOf]
    rw [hacc, hpr]
    cases hp : parse_cmudict_line l with
    | none =>
      have : pronsOf w [l] = [] := by simp [pronsOf, hp]
      rw [this, List.append_nil, ih]
    | some r =>
      by_cases hw : r.1 = w
      · have hone : pronsOf w [l] = [normPron r.2] := by simp [pronsOf, hp, hw]
        rw [hone, lookupPs_addPron, if_pos hw.symm, hw, ih, firstSeen_snoc]
        by_cases hmem : normPron r.2 ∈ pronsOf w ls
        · rw [if_pos ((mem_firstSeen _ _).2 hmem), if_pos hmem]
        · rw [if_neg (fun hh => hmem ((mem_firstSeen _ _).1 hh)), if_neg hmem]
      · have hnone : pronsOf w [l] = [] := by simp [pronsOf, hp, hw]
        rw [hnone, List.append_nil, lookupPs_addPron,
          if_neg (Ne.symm hw), ih]

/-- C6: throughout accumulation every base word's pronunciation list equals
the sequence of its normalized pronunciations in first-seen order with
later exact-string duplicates dropped; in particular it never contains two
equal strings. -/
theorem claim_C6 (lines : List (List Char)) (w : List Char) :
    lookupPs (accumulate lines) w = firstSeen (pronsOf w lines)
    ∧ (lookupPs (accumulate lines) w).Nodup := by
  refine ⟨lookupPs_accumulate lines w, ?_⟩
  rw [lookupPs_accumulate lines w]
  exact nodup_firstSeen _

/-! Lemmas about the emitter and the entry count (claim C8). -/

theorem length_emitWord (w : List Char) (ps : List (List Char)) :
    (emitWord w ps).length = ps.length := by
  simp [emitWord]

theorem emitWord_ne_nil (w : List Char) {ps : List (List Char)} (h : ps ≠ []) :
    emitWord w ps ≠ [] := by
  intro hnil
  apply h
  have hlen := congrArg List.length hnil
  rw [length_emitWord] at hlen
  exact List.length_eq_zero.1 hlen

theorem emitAll_fst (l : List Entry) :
    (emitAll l).1 = l.flatMap fun e => emitWord e.1 e.2 := by
  induction l with
  | nil => rfl
  | cons e rest ih => simp [emitAll, ih]

theorem emitAll_count (l : List Entry) : (emitAll l).2 = (emitAll l).1.length := by
  induction l with
  | nil => rfl
  | cons e rest ih => simp [emitAll, ih]

theorem emitAll_count_sum (l : List Entry) :
    (emitAll l).2 = (l.map (fun e => e.2.length)).sum := by
  induction l with
  | nil => rfl
  | cons e rest ih => simp [emitAll, ih, length_emitWord]

theorem sum_map_insertEntry (e : Entry) (l : List Entry) (f : Entry → Nat) :
    ((insertEntry e l).map f).sum = f e + (l.map f).sum := by
  induction l with
  | nil => simp [insertEntry]
  | cons g rest ih =>
    by_cases h : strLt g.1 e.1 = true <;> simp [insertEntry, h, ih] <;> omega

theorem sum_map_sortEntries (m : List Entry) (f : Entry → Nat) :
    ((sortEntries m).map f).sum = (m.map f).sum := by
  induction m with
  | nil => rfl
  | cons e rest ih =>
    show ((insertEntry e (sortEntries rest)).map f).sum = _
    rw [sum_map_insertEntry, ih]
    simp

/-- C8: the integer returned by `convert_dict` equals the number of output
lines it emitted, which is the sum over all accumulated base words of the
size of that word's pronunciation set. -/
theorem claim_C8 (lines : List (List Char)) :
    (convert_dict lines).2 = (convert_dict lines).1.length
    ∧ (convert_dict lines).2 = ((accumulate lines).map (fun e => e.2.length)).sum := by
  constructor
  · exact emitAll_count _
  · show (emitAll (sortEntries (accumulate lines))).2 = _
    rw [emitAll_count_sum, sum_map_sortEntries]

/-! Sorting lemmas (claim C7). -/

theorem strLt_irrefl (a : List Char) : strLt a a = false := by
  induction a with
  | nil => rfl
  | cons c cs ih => simp [strLt, ih]

theorem strLt_asymm : ∀ a b : List Char, strLt a b = true → strLt b a = false := by
  intro a
  induction a with
  | nil =>
    intro b h
    cases b with
    | nil => simp [strLt] at h
    | cons d ds => rfl
  | cons c cs ih =>
    intro b h
    cases b with
    | nil => simp [strLt] at h
    | cons d ds =>
      by_cases hcd : c = d
      · subst hcd
        have h' : strLt cs ds = true := by simpa [strLt] using h
        simp [strLt, ih ds h']
      · have h' : decide (c < d) = true := by simpa [strLt, hcd] using h
        have hlt : c < d := of_decide_eq_true h'
        have hnlt : ¬ d < c := lt_asymm hlt
        simp [strLt, Ne.symm hcd, hnlt]

theorem head_insertEntry (e : Entry) (l : List Entry) :
    ∀ x ∈ (insertEntry e l).head?, x = e ∨ x ∈ l.head? := by
  cases l with
  | nil =>
    intro x hx
    exact Or.inl (show e = x by simpa [insertEntry] using hx).symm
  | cons f rest =>
    intro x hx
    by_cases h : strLt f.1 e.1 = true
    · simp only [insertEntry, if_pos h] at hx
      exact Or.inr (by simpa using hx)
    · simp only [insertEntry, if_neg h] at hx
      exact Or.inl (show e = x by simpa using hx).symm

theorem chain'_insertEntry (e : Entry) (l : List Entry)
    (hl : List.Chain' (fun a b => strLt b.1 a.1 = false) l) :
    List.Chain' (fun a b => strLt b.1 a.1 = false) (insertEntry e l) := by
  induction l with
  | nil => simp [insertEntry]
  | cons f rest ih =>
    by_cases h : strLt f.1 e.1 = true
    · show List.Chain' _ (if strLt f.1 e.1 = true then f :: insertEntry e rest
        else e :: f :: rest)
      rw [if_pos h, List.chain'_cons']
      constructor
      · intro b hb
        rcases head_insertEntry e rest b hb with rfl | hmem
        · exact strLt_asymm _ _ h
        · exact (List.chain'_cons'.1 hl).1 b hmem
      · exact ih hl.tail
    · show List.Chain' _ (if strLt f.1 e.1 = true then f :: insertEntry e rest
        else e :: f :: rest)
      rw [if_neg h, List.chain'_cons']
      refine ⟨?_, hl⟩
      intro b hb
      have hbf : b = f := (show f = b by simpa using hb).symm
      subst hbf
      rwa [Bool.not_eq_true] at h

theorem chain'_sortEntries (m : List Entry) :
    List.Chain' (fun a b => strLt b.1 a.1 = false) (sortEntries m) := by
  induction m with
  | nil => simp [sortEntries]
  | cons e rest ih => exact chain'_insertEntry e _ ih

theorem insertEntry_perm (e : Entry) (l : List Entry) :
    List.Perm (insertEntry e l) (e :: l) := by
  induction l with
  | nil => exact List.Perm.refl _
  | cons f rest ih =>
    by_cases h : strLt f.1 e.1 = true
    · show List.Perm (if strLt f.1 e.1 = true then f :: insertEntry e rest
        else e :: f :: rest) _
      rw [if_pos h]
      exact (ih.cons f).trans (List.Perm.swap e f rest)
    · show List.Perm (if strLt f.1 e.1 = true then f :: insertEntry e rest
        else e :: f :: rest) _
      rw [if_neg h]

theorem sortEntries_perm (m : List Entry) : List.Perm (sortEntries m) m := by
  induction m with
  | nil => exact List.Perm.refl _
  | cons e rest ih => exact (insertEntry_perm e (sortEntries rest)).trans (ih.cons e)

theorem mem_sortEntries (x : Entry) (m : List Entry) :
    x ∈ sortEntries m ↔ x ∈ m :=
  (sortEntries_perm m).mem_iff

/-! Invariants of the accumulated map: nonempty pronunciation lists and
pairwise distinct keys. -/

theorem addPron_snd_ne_nil (m : List Entry) (w pron : List Char)
    (hm : ∀ e ∈ m, e.2 ≠ []) : ∀ e ∈ addPron m w pron, e.2 ≠ [] := by
  induction m with
  | nil =>
    intro e he
    have : e = (w, [pron]) := by simpa [addPron] using he
    simp [this]
  | cons f rest ih =>
    intro e he
    have hf := hm f (by simp)
    have hrest : ∀ x ∈ rest, x.2 ≠ [] := fun x hx => hm x (by simp [hx])
    by_cases h1 : f.1 = w
    · by_cases h2 : pron ∈ f.2
      · simp only [addPron, if_pos h1, if_pos h2] at he
        exact hm e he
      · simp only [addPron, if_pos h1, if_neg h2] at he
        rcases List.mem_cons.1 he with rfl | hmem
        · simp
        · exact hrest e hmem
    · simp only [addPron, if_neg h1] at he
      rcases List.mem_cons.1 he with rfl | hmem
      · exact hf
      · exact ih hrest e hmem

theorem accumulate_snd_ne_nil (lines : List (List Char)) :
    ∀ e ∈ accumulate lines, e.2 ≠ [] := by
  have main : ∀ (ls : List (List Char)) (m : List Entry), (∀ e ∈ m, e.2 ≠ []) →
      ∀ e ∈ ls.foldl (fun m line =>
        match parse_cmudict_line line with
        | none => m
        | some r => addPron m r.1 (normPron r.2)) m, e.2 ≠ [] := by
    intro ls
    induction ls with
    | nil => intro m hm; simpa using hm
    | cons l ls ih =>
      intro m hm
      rw [List.foldl_cons]
      apply ih
      cases hp : parse_cmudict_line l with
      | none => simpa [hp] using hm
      | some r =>
        simp only [hp]
        exact addPron_snd_ne_nil m r.1 (normPron r.2) hm
  simpa [accumulate] using main lines [] (by simp)

theorem keys_addPron (m : List Entry) (w pron : List Char) :
    (addPron m w pron).map Prod.fst =
      if w ∈ m.map Prod.fst then m.map Prod.fst else m.map Prod.fst ++ [w] := by
  induction m with
  | nil => simp [addPron]
  | cons e rest ih =>
    by_cases h1 : e.1 = w
    · by_cases h2 : pron ∈ e.2 <;> simp [addPron, h1, h2]
    · by_cases h3 : w ∈ rest.map Prod.fst <;>
        simp [addPron, h1, Ne.symm h1, ih, h3]

theorem keys_nodup_addPron (m : List Entry) (w pron : List Char)
    (hm : (m.map Prod.fst).Nodup) : ((addPron m w pron).map Prod.fst).Nodup := by
  rw [keys_addPron]
  by_cases h : w ∈ m.map Prod.fst
  · simp [h, hm]
  · simp [h, hm, List.nodup_append]

theorem keys_nodup_accumulate (lines : List (List Char)) :
    ((accumulate lines).map Prod.fst).Nodup := by
  have main : ∀ (ls : List (List Char)) (m : List Entry), (m.map Prod.fst).Nodup →
      ((ls.foldl (fun m line =>
        match parse_cmudict_line line with
        | none => m
        | some r => addPron m r.1 (normPron r.2)) m).map Prod.fst).Nodup := by
    intro ls
    induction ls with
    | nil => intro m hm; simpa using hm
    | cons l ls ih =>
      intro m hm
      rw [List.foldl_cons]
      apply ih
      cases hp : parse_cmudict_line l with
      | none => simpa [hp] using hm
      | some r =>
        simp only [hp]
        exact keys_nodup_addPron m r.1 (normPron r.2) hm
  simpa [accumulate] using main lines [] (by simp)

/-! The key sequence of the emitted lines is non-decreasing. -/

theorem chain'_const_map {α β : Type} (R : α → α → Prop) (k : α) (hR : R k k) :
    ∀ xs : List β, List.Chain' R (xs.map fun _ => k) := by
  intro xs
  induction xs with
  | nil => simp
  | cons x t ih =>
    cases t with
    | nil => simp
    | cons y t2 => exact List.Chain'.cons hR ih

theorem getLast?_const_map {α β : Type} (k : α) (xs : List β) (x : α)
    (hx : x ∈ (xs.map fun _ => k).getLast?) : x = k := by
  induction xs with
  | nil => simp at hx
  | cons y t ih =>
    cases t with
    | nil => exact (show k = x by simpa using hx).symm
    | cons z t2 => exact ih (by simpa [List.getLast?_cons_cons] using hx)

theorem chain'_flat_keys (l : List Entry)
    (hne : ∀ e ∈ l, e.2 ≠ [])
    (hchain : List.Chain' (fun a b => strLt b.1 a.1 = false) l) :
    List.Chain' (fun a b => strLt b a = false)
      (l.flatMap fun e => (emitWord e.1 e.2).map fun _ => e.1) := by
  induction l with
  | nil => simp
  | cons e rest ih =>
    rw [List.flatMap_cons, List.chain'_append]
    refine ⟨chain'_const_map _ e.1 (by simp [strLt_irrefl]) _, ?_, ?_⟩
    · exact ih (fun x hx => hne x (by simp [hx])) hchain.tail
    · intro x hx y hy
      have hxk : x = e.1 := getLast?_const_map e.1 _ x hx
      subst hxk
      cases rest with
      | nil => simp at hy
      | cons f rest2 =>
        obtain ⟨b0, bs, hb⟩ :=
          List.exists_cons_of_ne_nil (emitWord_ne_nil f.1 (hne f (by simp)))
        rw [List.flatMap_cons, hb] at hy
        have hyf : y = f.1 := (show f.1 = y by simpa using hy).symm
        subst hyf
        exact (List.chain'_cons'.1 hchain).1 f rfl

theorem taggedOut_snd (lines : List (List Char)) :
    (taggedOut lines).map Prod.snd = (convert_dict lines).1 := by
  show _ = (emitAll (sortEntries (accumulate lines))).1
  rw [emitAll_fst]
  simp [taggedOut, List.map_flatMap, List.map_map, Function.comp]

theorem taggedOut_fst (lines : List (List Char)) :
    (taggedOut lines).map Prod.fst =
      (sortEntries (accumulate lines)).flatMap
        fun e => (emitWord e.1 e.2).map fun _ => e.1 := by
  simp [taggedOut, List.map_flatMap, List.map_map, Function.comp]

/-- C7: the output lines, each tagged with the base word it was emitted
for (the tagging projects back to the exact output of `convert_dict`),
carry a lexicographically non-decreasing sequence of base words under
code-point string comparison. -/
theorem claim_C7 (lines : List (List Char)) :
    (taggedOut lines).map Prod.snd = (convert_dict lines).1
    ∧ List.Chain' (fun a b => strLt b a = false) ((taggedOut lines).map Prod.fst) := by
  refine ⟨taggedOut_snd lines, ?_⟩
  rw [taggedOut_fst]
  apply chain'_flat_keys
  · intro e he
    exact accumulate_snd_ne_nil lines e ((mem_sortEntries e _).1 he)
  · exact chain'_sortEntries _

/-! The per-word block of output lines (claims C1 and C2). -/

theorem enumFrom_map_getD {α : Type} (d : List Char) :
    ∀ (ps : List (List Char)) (n : Nat) (f : Nat → List Char → α),
      (List.enumFrom n ps).map (fun ip => f ip.1 ip.2)
        = (List.range ps.length).map (fun j => f (n + j) (ps.getD j d)) := by
  intro ps
  induction ps with
  | nil => intro n f; rfl
  | cons p ps ih =>
    intro n f
    rw [show List.enumFrom n (p :: ps) = (n, p) :: List.enumFrom (n + 1) ps from rfl,
      List.map_cons, ih (n + 1) f, List.length_cons, List.range_succ_eq_map,
      List.map_cons, List.map_map]
    congr 1
    simp only [List.map_inj_left, List.mem_range, Function.comp]
    intro a ha
    have harith : n + 1 + a = n + (a + 1) := by omega
    simp [List.getD_cons_succ, harith]

theorem emitWord_eq_range (w : List Char) (ps : List (List Char)) :
    emitWord w ps
      = (List.range ps.length).map (fun i => variantWord w i ++ ' ' :: ps.getD i []) := by
  show (List.enumFrom 0 ps).map
      (fun ip => (fun i p => variantWord w i ++ ' ' :: p) ip.1 ip.2) = _
  rw [enumFrom_map_getD [] ps 0 (fun i p => variantWord w i ++ ' ' :: p)]
  simp

theorem filter_tag_block (k w : List Char) (xs : List (List Char)) :
    ((xs.map fun ln => (k, ln)).filter fun t => decide (t.1 = w))
      = if k = w then xs.map (fun ln => (k, ln)) else [] := by
  induction xs with
  | nil => simp
  | cons x xs ih =>
    by_cases h : k = w <;> simp [List.filter_cons, h, ih]

theorem filter_tag_flat_nil (w : List Char) :
    ∀ l : List Entry, w ∉ l.map Prod.fst →
      ((l.flatMap fun e => (emitWord e.1 e.2).map fun ln => (e.1, ln)).filter
        fun t => decide (t.1 = w)) = [] := by
  intro l
  induction l with
  | nil => intro _; simp
  | cons e rest ih =>
    intro hw
    rw [List.flatMap_cons, List.filter_append, filter_tag_block]
    have he : ¬ e.1 = w := fun hh => hw (by simp [hh])
    rw [if_neg he, List.nil_append]
    exact ih (fun hh => hw (by simp [hh]))

theorem filter_tag_flat (w : List Char) (ps : List (List Char)) :
    ∀ l : List Entry, (l.map Prod.fst).Nodup → (w, ps) ∈ l →
      ((l.flatMap fun e => (emitWord e.1 e.2).map fun ln => (e.1, ln)).filter
        fun t => decide (t.1 = w)).map Prod.snd = emitWord w ps := by
  intro l
  induction l with
  | nil => intro _ h; simp at h
  | cons e rest ih =>
    intro hnd hmem
    have hnd' : ((e.1 :: rest.map Prod.fst)).Nodup := by simpa using hnd
    rw [List.flatMap_cons, List.filter_append, List.map_append]
    rcases List.mem_cons.1 hmem with rfl | hmem2
    · rw [filter_tag_block, if_pos rfl]
      have hw : w ∉ rest.map Prod.fst := (List.nodup_cons.1 hnd').1
      rw [filter_tag_flat_nil w rest hw, List.map_nil, List.append_nil]
      simp [List.map_map, Function.comp]
    · have hwrest : w ∈ rest.map Prod.fst := List.mem_map.2 ⟨(w, ps), hmem2, rfl⟩
      have hne : ¬ e.1 = w := by
        intro hh
        have hhead := (List.nodup_cons.1 hnd').1
        rw [hh] at hhead
        exact hhead hwrest
      rw [filter_tag_block, if_neg hne, List.map_nil, List.nil_append]
      exact ih (List.nodup_cons.1 hnd').2 hmem2

theorem getD_map_range {α : Type} (n i : Nat) (f : Nat → α) (d : α) (h : i < n) :
    ((List.range n).map f).getD i d = f i := by
  simp [List.getD, List.getElem?_map, List.getElem?_range h]

theorem lookupPs_eq_of_mem :
    ∀ (m : List Entry), ((m.map Prod.fst).Nodup) →
      ∀ {w ps}, (w, ps) ∈ m → lookupPs m w = ps := by
  intro m
  induction m with
  | nil => intro _ w ps h; simp at h
  | cons e rest ih =>
    intro hnd w ps hmem
    have hnd' : ((e.1 :: rest.map Prod.fst)).Nodup := by simpa using hnd
    rcases List.mem_cons.1 hmem with rfl | hmem2
    · simp [lookupPs]
    · have hwrest : w ∈ rest.map Prod.fst := List.mem_map.2 ⟨(w, ps), hmem2, rfl⟩
      have hne : ¬ e.1 = w := by
        intro hh
        have hhead := (List.nodup_cons.1 hnd').1
        rw [hh] at hhead
        exact hhead hwrest
      show (if e.1 = w then e.2 else lookupPs rest w) = ps
      rw [if_neg hne]
      exact ih (List.nodup_cons.1 hnd').2 hmem2

theorem keys_nodup_sortEntries (lines : List (List Char)) :
    (((sortEntries (accumulate lines)).map Prod.fst)).Nodup :=
  ((sortEntries_perm _).map Prod.fst).nodup_iff.2 (keys_nodup_accumulate lines)

/-- C1: for a base word accumulated with exactly k distinct normalized
pronunciations, the emitted lines for that word are the bare word followed
by the word suffixed with (2) through (k), one per pronunciation, and the
pronunciation list is in first-encountered input order. -/
theorem claim_C1 (lines : List (List Char)) (w : List Char) (ps : List (List Char))
    (k : Nat) (hmem : (w, ps) ∈ accumulate lines) (hk : ps.length = k) :
    ((taggedOut lines).filter fun t => decide (t.1 = w)).map Prod.snd
      = (List.range k).map (fun i =>
          (if i = 0 then w else w ++ '(' :: (toString (i + 1)).data ++ [')'])
            ++ ' ' :: ps.getD i [])
    ∧ ps = firstSeen (pronsOf w lines) := by
  constructor
  · rw [taggedOut,
      filter_tag_flat w ps (sortEntries (accumulate lines))
        (keys_nodup_sortEntries lines) ((mem_sortEntries _ _).2 hmem),
      emitWord_eq_range, hk]
    rfl
  · rw [← lookupPs_eq_of_mem (accumulate lines) (keys_nodup_accumulate lines) hmem,
      lookupPs_accumulate]

/-- Witness for C1 on a two-line input whose word has two distinct
normalized pronunciations. -/
theorem claim_C1_witness :
    (((taggedOut [['a', ' ', 'B', '1', ' ', 'C'], ['a', ' ', 'B', '0', ' ', 'D']]).filter
        fun t => decide (t.1 = ['a'])).map Prod.snd
      = (List.range 2).map (fun i =>
          (if i = 0 then ['a'] else ['a'] ++ '(' :: (toString (i + 1)).data ++ [')'])
            ++ ' ' :: [['B', ' ', 'C'], ['B', ' ', 'D']].getD i []))
    ∧ [['B', ' ', 'C'], ['B', ' ', 'D']]
        = firstSeen (pronsOf ['a'] [['a', ' ', 'B', '1', ' ', 'C'], ['a', ' ', 'B', '0', ' ', 'D']]) :=
  claim_C1 [['a', ' ', 'B', '1', ' ', 'C'], ['a', ' ', 'B', '0', ' ', 'D']] ['a']
    [['B', ' ', 'C'], ['B', ' ', 'D']] 2 (by decide) (by decide)

/-- C2 counterexample: the claim predicts variant suffix number i + 2 for
the pronunciation at zero-based index i ≥ 1, so suffix (3) for index 1;
the code emits suffix (2) there, and no line with suffix (3) exists. -/
theorem claim_C2_counterexample :
    (convert_dict [['b', ' ', 'K', '1'], ['b', ' ', 'K', '0', ' ', 'T']]).1
      = [['b', ' ', 'K'], ['b', '(', '2', ')', ' ', 'K', ' ', 'T']]
    ∧ ['b', '(', '3', ')', ' ', 'K', ' ', 'T'] ∉
        (convert_dict [['b', ' ', 'K', '1'], ['b', ' ', 'K', '0', ' ', 'T']]).1 := by
  decide

/-- C2 (amended): the pronunciation at zero-based index 0 is emitted under
the bare base word, and the pronunciation at zero-based index i ≥ 1 is
emitted under the word with variant suffix number i + 1. -/
theorem claim_C2 (lines : List (List Char)) (w : List Char) (ps : List (List Char))
    (hmem : (w, ps) ∈ accumulate lines) :
    ∀ i, i < ps.length →
      (((taggedOut lines).filter fun t => decide (t.1 = w)).map Prod.snd).getD i []
        = (if i = 0 then w else w ++ '(' :: (toString (i + 1)).data ++ [')'])
            ++ ' ' :: ps.getD i [] := by
  intro i hi
  rw [taggedOut,
    filter_tag_flat w ps (sortEntries (accumulate lines))
      (keys_nodup_sortEntries lines) ((mem_sortEntries _ _).2 hmem),
    emitWord_eq_range, getD_map_range ps.length i _ [] hi]
  rfl

/-- Witness for C2 at indices 0 and 1 of a word with two pronunciations. -/
theorem claim_C2_witness :
    (((taggedOut [['b', ' ', 'K', '1'], ['b', ' ', 'K', '0', ' ', 'T']]).filter
        fun t => decide (t.1 = ['b'])).map Prod.snd).getD 0 []
      = (if 0 = 0 then ['b'] else ['b'] ++ '(' :: (toString (0 + 1)).data ++ [')'])
          ++ ' ' :: [['K'], ['K', ' ', 'T']].getD 0 []
    ∧ (((taggedOut [['b', ' ', 'K', '1'], ['b', ' ', 'K', '0', ' ', 'T']]).filter
        fun t => decide (t.1 = ['b'])).map Prod.snd).getD 1 []
      = (if 1 = 0 then ['b'] else ['b'] ++ '(' :: (toString (1 + 1)).data ++ [')'])
          ++ ' ' :: [['K'], ['K', ' ', 'T']].getD 1 [] :=
  ⟨claim_C2 [['b', ' ', 'K', '1'], ['b', ' ', 'K', '0', ' ', 'T']] ['b']
      [['K'], ['K', ' ', 'T']] (by decide) 0 (by decide),
   claim_C2 [['b', ' ', 'K', '1'], ['b', ' ', 'K', '0', ' ', 'T']] ['b']
      [['K'], ['K', ' ', 'T']] (by decide) 1 (by decide)⟩

/-! The line parser (claim C5). -/

theorem takeWhile_all_append (f : Char → Bool) :
    ∀ (xs ys : List Char), (∀ x ∈ xs, f x = true) →
      (xs ++ ys).takeWhile f = xs ++ ys.takeWhile f := by
  intro xs
  induction xs with
  | nil => intro ys _; rfl
  | cons x t ih =>
    intro ys h
    have hx : f x = true := h x (by simp)
    simp [List.takeWhile_cons, hx, ih ys (fun y hy => h y (by simp [hy]))]

theorem dropWhile_all_append (f : Char → Bool) :
    ∀ (xs ys : List Char), (∀ x ∈ xs, f x = true) →
      (xs ++ ys).dropWhile f = ys.dropWhile f := by
  intro xs
  induction xs with
  | nil => intro ys _; rfl
  | cons x t ih =>
    intro ys h
    have hx : f x = true := h x (by simp)
    simp [List.dropWhile_cons, hx, ih ys (fun y hy => h y (by simp [hy]))]

theorem reverse_decomp (q ds : List Char) :
    (q ++ '(' :: ds ++ [')']).reverse = ')' :: ds.reverse ++ '(' :: q.reverse := by
  simp

theorem dropVariantRev_decomp (q ds : List Char) (hds : ds ≠ [])
    (hdig : ∀ c ∈ ds, c.isDigit = true) :
    dropVariantRev (')' :: ds.reverse ++ '(' :: q.reverse) = some q.reverse := by
  have hall : ∀ c ∈ ds.reverse, Char.isDigit c = true :=
    fun c hc => hdig c (List.mem_reverse.1 hc)
  have htw : (ds.reverse ++ '(' :: q.reverse).takeWhile Char.isDigit = ds.reverse := by
    rw [takeWhile_all_append Char.isDigit ds.reverse ('(' :: q.reverse) hall]
    simp [List.takeWhile_cons]
  have hdw : (ds.reverse ++ '(' :: q.reverse).dropWhile Char.isDigit = '(' :: q.reverse := by
    rw [dropWhile_all_append Char.isDigit ds.reverse ('(' :: q.reverse) hall]
    simp [List.dropWhile_cons]
  have hne : (ds.reverse ++ '(' :: q.reverse).takeWhile Char.isDigit ≠ [] := by
    rw [htw]
    simpa using hds
  simp [dropVariantRev, htw, hdw, List.isEmpty_iff, hne]
  simpa using hds

theorem dropVariantSuffix_decomp (q ds : List Char) (hds : ds ≠ [])
    (hdig : ∀ c ∈ ds, c.isDigit = true) :
    dropVariantSuffix (q ++ '(' :: ds ++ [')']) = q := by
  unfold dropVariantSuffix
  rw [reverse_decomp, dropVariantRev_decomp q ds hds hdig]
  simp

theorem dropVariantRev_some_decomp (r out : List Char)
    (h : dropVariantRev r = some out) :
    ∃ ds, ds ≠ [] ∧ (∀ c ∈ ds, c.isDigit = true) ∧ r = ')' :: ds ++ '(' :: out := by
  cases r with
  | nil => simp [dropVariantRev] at h
  | cons c rest =>
    by_cases hc : c = ')'
    · subst hc
      have h1 : (if (rest.takeWhile Char.isDigit).isEmpty then none
          else match rest.dropWhile Char.isDigit with
            | c2 :: q => if c2 = '(' then some q else none
            | [] => (none : Option (List Char))) = some out := by
        simpa [dropVariantRev] using h
      by_cases he : (rest.takeWhile Char.isDigit).isEmpty = true
      · rw [if_pos he] at h1
        simp at h1
      · rw [if_neg he] at h1
        cases hd : rest.dropWhile Char.isDigit with
        | nil =>
          rw [hd] at h1
          simp at h1
        | cons c2 r2 =>
          rw [hd] at h1
          have h2 : (if c2 = '(' then some r2 else none) = some out := h1
          by_cases hc2 : c2 = '('
          · subst hc2
            rw [if_pos rfl] at h2
            have hout : r2 = out := by simpa using h2
            refine ⟨rest.takeWhile Char.isDigit, ?_, ?_, ?_⟩
            · simpa [List.isEmpty_iff] using he
            · intro x hx
              exact List.mem_takeWhile_imp hx
            · rw [← hout, ← hd]
              congr 1
              rw [List.append_eq]
              exact (List.takeWhile_append_dropWhile Char.isDigit rest).symm
          · rw [if_neg hc2] at h2
            simp at h2
    · rw [show dropVariantRev (c :: rest) = none from by simp [dropVariantRev, hc]] at h
      simp at h

theorem dropVariantSuffix_no_decomp (tok : List Char)
    (hnl : '\n' ∉ tok)
    (hno : ∀ q ds, ds ≠ [] → (∀ c ∈ ds, c.isDigit = true) →
      tok ≠ q ++ '(' :: ds ++ [')']) :
    dropVariantSuffix tok = tok := by
  have hrev : dropVariantRev tok.reverse = none := by
    cases hr : dropVariantRev tok.reverse with
    | none => rfl
    | some out =>
      obtain ⟨ds, hds, hdig, hshape⟩ := dropVariantRev_some_decomp _ _ hr
      have htok : tok = out.reverse ++ '(' :: ds.reverse ++ [')'] := by
        have h2 := congrArg List.reverse hshape
        rw [List.reverse_reverse] at h2
        rw [h2]
        simp
      exact absurd htok
        (hno out.reverse ds.reverse (by simpa using hds)
          (fun c hc => hdig c (List.mem_reverse.1 hc)))
  cases ht : tok.reverse with
  | nil =>
    rw [ht] at hrev
    simp [dropVariantSuffix, hrev, ht]
  | cons c r =>
    rw [ht] at hrev
    have hc : ¬ c = '\n' := by
      intro hcc
      apply hnl
      subst hcc
      have hmem : '\n' ∈ tok.reverse := by
        rw [ht]
        simp
      simpa using hmem
    simp [dropVariantSuffix, hrev, ht, hc]

theorem pySplitAux_no_space :
    ∀ (s cur : List Char), (∀ c ∈ cur, isSpace c = false) →
      ∀ tok ∈ pySplitAux s cur, ∀ c ∈ tok, isSpace c = false := by
  intro s
  induction s with
  | nil =>
    intro cur hcur tok htok c hc
    by_cases hemp : cur.isEmpty = true
    · simp [pySplitAux, hemp] at htok
    · simp only [pySplitAux, if_neg hemp] at htok
      have : tok = cur.reverse := by simpa using htok
      subst this
      exact hcur c (List.mem_reverse.1 hc)
  | cons x rest ih =>
    intro cur hcur tok htok c hc
    by_cases hx : isSpace x = true
    · by_cases hemp : cur.isEmpty = true
      · rw [show pySplitAux (x :: rest) cur = pySplitAux rest [] from by
          simp [pySplitAux, hx, hemp]] at htok
        exact ih [] (by simp) tok htok c hc
      · rw [show pySplitAux (x :: rest) cur = cur.reverse :: pySplitAux rest [] from by
          simp [pySplitAux, hx, hemp]] at htok
        rcases List.mem_cons.1 htok with rfl | htok2
        · exact hcur c (List.mem_reverse.1 hc)
        · exact ih [] (by simp) tok htok2 c hc
    · rw [show pySplitAux (x :: rest) cur = pySplitAux rest (x :: cur) from by
        simp [pySplitAux, hx]] at htok
      have hcur' : ∀ d ∈ x :: cur, isSpace d = false := by
        intro d hd
        rcases List.mem_cons.1 hd with rfl | hd2
        · simpa using hx
        · exact hcur d hd2
      exact ih (x :: cur) hcur' tok htok c hc

theorem pySplit_no_space (s : List Char) (tok : List Char) (h : tok ∈ pySplit s) :
    ∀ c ∈ tok, isSpace c = false :=
  pySplitAux_no_space s [] (by simp) tok h

/-- C5: the parser returns none exactly when the trimmed line is empty,
starts with three semicolons, or yields fewer than two whitespace-separated
tokens after inline-comment truncation; otherwise it returns the remaining
tokens paired with the first token stripped of a trailing parenthesized
nonempty run of digits (and unchanged when no such suffix exists). -/
theorem claim_C5 (line : List Char) :
    (parse_cmudict_line line = none ↔
      pyStrip line = [] ∨ startsWithSemis (pyStrip line) = true
        ∨ (pySplit (removeComment (pyStrip line))).length < 2)
    ∧ (∀ w ph, parse_cmudict_line line = some (w, ph) →
        ∃ tok, pySplit (removeComment (pyStrip line)) = tok :: ph
          ∧ w = dropVariantSuffix tok
          ∧ (∀ q ds, ds ≠ [] → (∀ c ∈ ds, c.isDigit = true) →
              tok = q ++ '(' :: ds ++ [')'] → w = q)
          ∧ ((∀ q ds, ds ≠ [] → (∀ c ∈ ds, c.isDigit = true) →
              tok ≠ q ++ '(' :: ds ++ [')']) → w = tok)) := by
  by_cases hcond : ((pyStrip line).isEmpty || startsWithSemis (pyStrip line)) = true
  · have hp : parse_cmudict_line line = none := by
      simp only [parse_cmudict_line, hcond, if_true]
    constructor
    · rw [hp]
      constructor
      · intro _
        rcases Bool.or_eq_true_iff.1 hcond with h | h
        · exact Or.inl (by simpa [List.isEmpty_iff] using h)
        · exact Or.inr (Or.inl h)
      · intro _
        rfl
    · intro w ph hsome
      rw [hp] at hsome
      exact absurd hsome (by simp)
  · have hne : ¬ pyStrip line = [] := by
      intro hh
      exact hcond (by simp [hh])
    have hsem : ¬ startsWithSemis (pyStrip line) = true := by
      intro hh
      exact hcond (by simp [hh])
    have hp : parse_cmudict_line line =
        (match pySplit (removeComment (pyStrip line)) with
         | tok :: p :: ps => some (dropVariantSuffix tok, p :: ps)
         | _ => none) := by
      simp only [parse_cmudict_line, hcond, if_false, Bool.false_eq_true]
    constructor
    · cases hsp : pySplit (removeComment (pyStrip line)) with
      | nil =>
        rw [hp, hsp]
        simp [hne, hsem]
      | cons tok rest =>
        cases rest with
        | nil =>
          rw [hp, hsp]
          simp [hne, hsem]
        | cons p ps =>
          rw [hp, hsp]
          simp only [List.length_cons]
          constructor
          · intro hh
            exact absurd hh (by simp)
          · intro hh
            rcases hh with hh | hh | hh
            · exact absurd hh hne
            · exact absurd hh hsem
            · omega
    · intro w ph hsome
      rw [hp] at hsome
      cases hsp : pySplit (removeComment (pyStrip line)) with
      | nil =>
        rw [hsp] at hsome
        exact absurd hsome (by simp)
      | cons tok rest =>
        cases rest with
        | nil =>
          rw [hsp] at hsome
          exact absurd hsome (by simp)
        | cons p ps =>
          rw [hsp] at hsome
          have hw : dropVariantSuffix tok = w ∧ p :: ps = ph := by
            simpa using hsome
          refine ⟨tok, ?_, hw.1.symm, ?_, ?_⟩
          · rw [hw.2]

          · intro q ds hds hdig htok
            rw [← hw.1, htok]
            exact dropVariantSuffix_decomp q ds hds hdig
          · intro hno
            rw [← hw.1]
            refine dropVariantSuffix_no_decomp tok ?_ hno
            intro hmem
            have hns := pySplit_no_space (removeComment (pyStrip line)) tok
              (by rw [hsp]; simp) '\n' hmem
            simp [isSpace] at hns

/-- Witness for C5 on the line cat(2) K AE1 T. -/
theorem claim_C5_witness :
    ∃ tok,
      pySplit (removeComment (pyStrip
          ['c', 'a', 't', '(', '2', ')', ' ', 'K', ' ', 'A', 'E', '1', ' ', 'T']))
        = tok :: [['K'], ['A', 'E', '1'], ['T']]
      ∧ ['c', 'a', 't'] = dropVariantSuffix tok
      ∧ (∀ q ds, ds ≠ [] → (∀ c ∈ ds, c.isDigit = true) →
          tok = q ++ '(' :: ds ++ [')'] → ['c', 'a', 't'] = q)
      ∧ ((∀ q ds, ds ≠ [] → (∀ c ∈ ds, c.isDigit = true) →
          tok ≠ q ++ '(' :: ds ++ [')']) → ['c', 'a', 't'] = tok) :=
  (claim_C5 ['c', 'a', 't', '(', '2', ')', ' ', 'K', ' ', 'A', 'E', '1', ' ', 'T']).2
    ['c', 'a', 't'] [['K'], ['A', 'E', '1'], ['T']] (by decide)

end MakePsDict
